import Mathlib

/-!
Verification of the nmigen-soc CSR bus fabric: a shallow embedding of
`nmigen_soc/csr/wishbone.py` (the `WishboneCSRBridge`) together with the
spec-described CSR multiplexer behaviour exercised by
`nmigen_soc/test/test_csr_bus.py`, and theorems settling the claims about
bridge pacing, read reassembly, address formation, construction validation,
and multiplexer address-map packing and write atomicity.

Machine values are modelled as `Nat`; a signal of width `w` always carries a
value below `2 ^ w` in the modelled runs, so no wrap-around arithmetic is
needed (the bridge's `cycle` counter is sized `range(slen + 1)` and never
exceeds `slen`).
-/

namespace NmigenSoc

/-! ### Bit-slice operations on flat signals

The source assigns and reads `granularity`-bit slices of flat signals
(`wb_bus.dat_r[segment(i)]`, the multiplexer's write accumulator).  A slice
at chunk index `k` of a flat value `d` covers bits
`[gran * k, gran * (k + 1))`; with `b := 2 ^ gran` this is the base-`b`
digit at position `k`, since `2 ^ (gran * k) = (2 ^ gran) ^ k`. -/

/-- Base-`b` digit of `d` at position `k`. -/
def getDigit (b d k : Nat) : Nat := d / b ^ k % b

/-- The value `d` with its base-`b` digit at position `k` replaced by `v % b`
(all other digits kept): the registered slice assignment
`sig[b*k : b*(k+1)].eq(v)` on a flat signal. -/
def setDigit (b d k v : Nat) : Nat :=
  d % b ^ k + v % b * b ^ k + d / b ^ (k + 1) * b ^ (k + 1)

/-- The `gran`-bit slice of `d` at chunk index `k` (source: `segment(k)`). -/
def getSeg (gran d k : Nat) : Nat := getDigit (2 ^ gran) d k

/-- The value `d` with the `gran`-bit slice at chunk index `k` replaced by `v`
(source: `sig[segment(k)].eq(v)`). -/
def setSeg (gran d k v : Nat) : Nat := setDigit (2 ^ gran) d k v

/-! ### The nmigen `log2_int` utility

`nmigen.utils.log2_int(n)` (a library dependency, not repository code)
returns `0` for `n = 0`, returns the exact base-2 logarithm when `n` is a
power of two, and raises `ValueError` otherwise.  `none` models the raise.
The executable search below returns the unique `r ≤ n` with `2 ^ r = n`. -/
def log2_int (n : Nat) : Option Nat :=
  if n = 0 then some 0
  else (List.range (n + 1)).find? fun r => 2 ^ r == n

/-- Whether `n` is a power of two (executable). -/
def isPow2 (n : Nat) : Bool :=
  (List.range (n + 1)).any fun r => 2 ^ r == n

/-! ### WishboneCSRBridge construction (`WishboneCSRBridge.__init__`)

From `csr/wishbone.py` lines 38-64: after the `isinstance` check (enforced
here by typing), the constructor rejects a CSR data width outside
{8, 16, 32, 64}, defaults `data_width` to the CSR data width, and builds the
Wishbone interface with
`addr_width = max(0, csr.addr_width - log2_int(data_width // csr.data_width))`,
the given `data_width`, and `granularity = csr.data_width`.  `log2_int` is
evaluated while building the argument list, so a non-power-of-two width
ratio raises there first. -/

structure BridgeConfig where
  wb_addr_width : Nat
  wb_data_width : Nat
  wb_granularity : Nat
deriving Repr, DecidableEq

/-- Modelled from the spec: the Wishbone `Interface` constructor validation.
`nmigen_soc/wishbone.py` is not under `src/`; per spec section 6 the
external configuration validation "rejects non-power-of-two or mismatched
widths before any of the above logic runs", modelled as requiring a
power-of-two data width and a granularity not exceeding the data width. -/
def wishboneInterfaceOk (data_width granularity : Nat) : Bool :=
  isPow2 data_width && decide (granularity ≤ data_width)

/-- The constructor `WishboneCSRBridge.__init__`: `none` models a raised `ValueError`
(whether from the explicit data-width check, from `log2_int` on a
non-power-of-two width ratio, or from the Wishbone interface validation). -/
def bridgeInit (csr_addr_width csr_data_width : Nat) (data_width : Option Nat) :
    Option BridgeConfig :=
  if csr_data_width = 8 ∨ csr_data_width = 16 ∨ csr_data_width = 32 ∨ csr_data_width = 64 then
    (log2_int (data_width.getD csr_data_width / csr_data_width)).bind fun r =>
      if wishboneInterfaceOk (data_width.getD csr_data_width) csr_data_width then
        some { wb_addr_width := max 0 (csr_addr_width - r)
               wb_data_width := data_width.getD csr_data_width
               wb_granularity := csr_data_width }
      else none
  else none

/-! ### WishboneCSRBridge clocked behaviour (`WishboneCSRBridge.elaborate`)

Registered (sync-domain) signals of the bridge: the `cycle` counter, the
Wishbone `ack` output and the Wishbone `dat_r` output.  `chunks` stands for
`slen = len(wb_bus.sel) = data_width // granularity` and `gran` for
`wb_bus.granularity = csr_bus.data_width`. -/

structure BridgeState where
  cycle : Nat
  ack : Bool
  dat_r : Nat
deriving Repr, DecidableEq

/-- The wide-bus inputs sampled in one clock cycle, together with the value
the narrow CSR bus presents on `csr_bus.r_data` during that cycle. -/
structure BridgeInput where
  cyc : Bool
  stb : Bool
  we : Bool
  adr : Nat
  dat_w : Nat
  sel : Nat → Bool
  r_data : Nat

/-- The activation condition `wb_bus.cyc & (wb_bus.stb | is_in_progress)` of line 91,
where the combinational
`is_in_progress` is `cycle != 0` (lines 84-85, 91). -/
def bridgeActive (s : BridgeState) (j : BridgeInput) : Bool :=
  j.cyc && (j.stb || decide (s.cycle ≠ 0))

/-- One clock edge of the bridge (lines 91-119).  Inside the active `If`,
the `Switch` on `cycle` runs one `Case(index)` per chunk (registering the
previous chunk's CSR read data into slice `index - 1` for `index > 0` and
advancing `cycle`), and the `Default` branch (reached at `cycle = chunks`)
registers the last chunk's read data into slice `chunks - 1` and sets
`ack`.  The trailing `If(wb_bus.ack)` overrides the sync assignments to
`cycle` and `ack`, as later nmigen assignments in the same domain do. -/
def bridgeStep (chunks gran : Nat) (s : BridgeState) (j : BridgeInput) : BridgeState :=
  let s1 :=
    if bridgeActive s j then
      if s.cycle < chunks then
        { cycle := s.cycle + 1
          ack := s.ack
          dat_r := if 0 < s.cycle then setSeg gran s.dat_r (s.cycle - 1) j.r_data
                   else s.dat_r }
      else
        { cycle := s.cycle
          ack := true
          dat_r := setSeg gran s.dat_r (chunks - 1) j.r_data }
    else s
  if s.ack then { s1 with cycle := 0, ack := false } else s1

/-- The reset state: all registered signals are zero. -/
def bridgeIdle : BridgeState := { cycle := 0, ack := false, dat_r := 0 }

/-- The bridge state after `t` clock edges from reset under input trace `inp`. -/
def bridgeRun (chunks gran : Nat) (inp : Nat → BridgeInput) : Nat → BridgeState
  | 0 => bridgeIdle
  | t + 1 => bridgeStep chunks gran (bridgeRun chunks gran inp t) (inp t)

/-- The combinational narrow-bus address (line 78):
`csr_bus.addr.eq(Cat(cycle[:log2_int(slen)], wb_bus.adr))`, with
`k = log2_int(slen)` (so `slen = 2 ^ k`; see `log2_int_pow`).  The low `k`
bits of `cycle` occupy the low address bits and `wb_bus.adr` sits above. -/
def csr_addr (k : Nat) (s : BridgeState) (j : BridgeInput) : Nat :=
  s.cycle % 2 ^ k + 2 ^ k * j.adr

/-- The combinational narrow-bus read strobe (line 106): driven
`sel_index & ~wb_bus.we` in the `Case` for the current chunk, `0` elsewhere. -/
def csr_r_stb (chunks : Nat) (s : BridgeState) (j : BridgeInput) : Bool :=
  bridgeActive s j && decide (s.cycle < chunks) && j.sel s.cycle && !j.we

/-- The combinational narrow-bus write strobe (line 108). -/
def csr_w_stb (chunks : Nat) (s : BridgeState) (j : BridgeInput) : Bool :=
  bridgeActive s j && decide (s.cycle < chunks) && j.sel s.cycle && j.we

/-- The combinational narrow-bus write data (line 107): the current chunk's
slice of `wb_bus.dat_w`, `0` outside the dispatch. -/
def csr_w_data (chunks gran : Nat) (s : BridgeState) (j : BridgeInput) : Nat :=
  if bridgeActive s j && decide (s.cycle < chunks) then getSeg gran j.dat_w s.cycle
  else 0

/-! ### The unbound name at the stall assignment (line 89)

Line 89 of `csr/wishbone.py` reads `comb += wb_bus.stall.eq(~ack)`.  Python
resolves the bare name `ack` against the local scope of `elaborate`, then the
module globals of `wishbone.py`, then builtins; the nmigen star import and
builtins bind no name `ack` either.  The lists below enumerate the names the
two inner scopes bind at that point. -/

/-- Python identifiers, as an enumeration (no strings needed). -/
inductive PyName
  | pySelf | pyPlatform | pyCsrBus | pyWbBus | pyM | pyComb | pySync | pySlen
  | pyCycle | pyIsInProgress | pyWishboneCSRBridge | pyCSRInterface
  | pyWishboneInterface | pyMemoryMap | pyLog2Int | pyAllList | pyAck
deriving Repr, DecidableEq

/-- The local names bound in `WishboneCSRBridge.elaborate` when line 89 runs:
the two parameters and the assignments of lines 67-85. -/
def stallAssignLocals : List PyName :=
  [PyName.pySelf, PyName.pyPlatform, PyName.pyCsrBus, PyName.pyWbBus,
   PyName.pyM, PyName.pyComb, PyName.pySync, PyName.pySlen, PyName.pyCycle,
   PyName.pyIsInProgress]

/-- The module-level names `csr/wishbone.py` itself binds (its imports from
`nmigen_soc` and `nmigen.utils`, the class, and `__all__`). -/
def wishbonePyModuleNames : List PyName :=
  [PyName.pyCSRInterface, PyName.pyWishboneInterface, PyName.pyMemoryMap,
   PyName.pyLog2Int, PyName.pyWishboneCSRBridge, PyName.pyAllList]

/-! ### CSR multiplexer address map (spec sections 3 and 8)

`nmigen_soc/csr/bus.py` is not under `src/`; only its unit tests are.  The
following definitions are modelled from the spec. -/

/-- Modelled from the spec: `raw_chunks = ceil(element.width / chunk_width)`,
minimum 1 chunk even for width 0 (spec section 3, `CSRMultiplexer.add`). -/
def rawChunks (dw w : Nat) : Nat := max 1 ((w + dw - 1) / dw)

/-- Modelled from the spec: `round_up(x, 2^a)`, the alignment rounding applied
to both the cursor and the chunk count (spec section 3). -/
def alignUp (x a : Nat) : Nat := (x + 2 ^ a - 1) / 2 ^ a * 2 ^ a

/-- Modelled from the spec: one `CSRMultiplexer.add(element)` call at cursor
`cursor` for an element of width `w`; returns
`(base_offset, chunk_count, new cursor)`. -/
def muxAdd (dw a cursor w : Nat) : Nat × Nat × Nat :=
  (alignUp cursor a, alignUp (rawChunks dw w) a,
   alignUp cursor a + alignUp (rawChunks dw w) a)

/-- Modelled from the spec: the `(base_offset, chunk_count)` pairs returned by
a sequence of `add` calls for elements of widths `ws`, starting at cursor
`c`, with the cursor threaded through as `add` mutates it. -/
def muxAddAll (dw a : Nat) : Nat → List Nat → List (Nat × Nat)
  | _, [] => []
  | c, w :: ws =>
    ((muxAdd dw a c w).1, (muxAdd dw a c w).2.1) ::
      muxAddAll dw a (muxAdd dw a c w).2.2 ws

/-! ### CSR multiplexer write path (spec section 4.2, test `test_sim`)

Modelled from the spec, for one registered element with `els` assigned
chunks of `cw` bits each: chunk `i` of the incoming narrow write data is
deposited into the write accumulator at bit offset `i * cw`, registered at
the next edge; when `i` is the element's last chunk (`i = els - 1`) the
element's `w_stb` is asserted for exactly the following cycle, with the
element's `w_data` showing the accumulator's assembled value. -/

structure ElemWrState where
  w_acc : Nat
  w_stb : Bool
deriving Repr, DecidableEq

/-- Modelled from the spec: one clock edge of the multiplexer write path for
one element.  The input is the chunk-index/data pair decoded for this element
this cycle, or `none` when the cycle addresses no chunk of it. -/
def elemWrStep (cw els : Nat) (s : ElemWrState) (j : Option (Nat × Nat)) : ElemWrState :=
  match j with
  | some p => { w_acc := setSeg cw s.w_acc p.1 p.2, w_stb := decide (p.1 = els - 1) }
  | none => { s with w_stb := false }

/-- The input trace writing chunks `0, 1, ..., els - 1` on consecutive cycles
with data `d 0, d 1, ...`, then idle: chunk-by-chunk ascending order. -/
def ascWrites (els : Nat) (d : Nat → Nat) (t : Nat) : Option (Nat × Nat) :=
  if t < els then some (t, d t) else none

/-- The element write-path state after `t` edges of an ascending
chunk-by-chunk write, from a cleared accumulator. -/
def elemWrRun (cw els : Nat) (d : Nat → Nat) : Nat → ElemWrState
  | 0 => { w_acc := 0, w_stb := false }
  | t + 1 => elemWrStep cw els (elemWrRun cw els d t) (ascWrites els d t)

/-! ## Bit-slice lemmas -/

theorem setDigit_shape (b d k v : Nat) :
    setDigit b d k v = d % b ^ k + (v % b + d / b ^ (k + 1) * b) * b ^ k := by
  unfold setDigit
  ring

theorem getDigit_setDigit_self {b : Nat} (hb : 0 < b) (d k v : Nat) :
    getDigit b (setDigit b d k v) k = v % b := by
  have hbk : 0 < b ^ k := pow_pos hb k
  unfold getDigit
  rw [setDigit_shape, Nat.add_mul_div_right _ _ hbk,
      Nat.div_eq_of_lt (Nat.mod_lt d hbk), zero_add,
      Nat.add_mul_mod_self_right, Nat.mod_mod_of_dvd v dvd_rfl]

theorem getDigit_setDigit_lt {b : Nat} (hb : 0 < b) {j k : Nat} (hjk : j < k)
    (d v : Nat) : getDigit b (setDigit b d k v) j = getDigit b d j := by
  have hbj : 0 < b ^ j := pow_pos hb j
  obtain ⟨e, rfl⟩ : ∃ e, k = j + (e + 1) := ⟨k - j - 1, by omega⟩
  have hsplit : b ^ (j + (e + 1)) = b ^ j * b ^ (e + 1) := pow_add b j (e + 1)
  have h1 : setDigit b d (j + (e + 1)) v
      = d % (b ^ j * b ^ (e + 1))
        + (v % b + d / b ^ (j + (e + 1) + 1) * b) * b ^ (e + 1) * b ^ j := by
    rw [setDigit_shape, hsplit]
    ring
  unfold getDigit
  rw [h1, Nat.add_mul_div_right _ _ hbj, Nat.mod_mul_right_div_self]
  have h2 : (v % b + d / b ^ (j + (e + 1) + 1) * b) * b ^ (e + 1)
      = (v % b + d / b ^ (j + (e + 1) + 1) * b) * b ^ e * b := by
    rw [pow_succ]
    ring
  rw [h2, Nat.add_mul_mod_self_right,
      Nat.mod_mod_of_dvd _ (dvd_pow_self b (Nat.succ_ne_zero e))]

theorem getDigit_setDigit_gt {b : Nat} (hb : 0 < b) {j k : Nat} (hkj : k < j)
    (d v : Nat) : getDigit b (setDigit b d k v) j = getDigit b d j := by
  obtain ⟨e, rfl⟩ : ∃ e, j = k + 1 + e := ⟨j - (k + 1), by omega⟩
  have hbk1 : 0 < b ^ (k + 1) := pow_pos hb (k + 1)
  have hlow : d % b ^ k + v % b * b ^ k < b ^ (k + 1) := by
    have h1 : d % b ^ k < b ^ k := Nat.mod_lt d (pow_pos hb k)
    have h2 : v % b * b ^ k ≤ (b - 1) * b ^ k :=
      Nat.mul_le_mul_right _ (by have := Nat.mod_lt v hb; omega)
    have h3 : b ^ k + (b - 1) * b ^ k = b ^ (k + 1) := by
      have h4 : b ^ k + (b - 1) * b ^ k = (1 + (b - 1)) * b ^ k := by ring
      rw [h4, show 1 + (b - 1) = b by omega, pow_succ]
      ring
    omega
  have h5 : setDigit b d k v
      = (d % b ^ k + v % b * b ^ k) + d / b ^ (k + 1) * b ^ (k + 1) := by
    unfold setDigit
    ring
  unfold getDigit
  rw [h5, pow_add b (k + 1) e, ← Nat.div_div_eq_div_mul,
      Nat.add_mul_div_right _ _ hbk1, Nat.div_eq_of_lt hlow, zero_add,
      Nat.div_div_eq_div_mul, ← pow_add]

theorem setDigit_of_lt {b : Nat} (hb : 0 < b) {d k : Nat} (hd : d < b ^ k)
    (v : Nat) : setDigit b d k v = d + v % b * b ^ k := by
  have h1 : d < b ^ (k + 1) :=
    lt_of_lt_of_le hd (Nat.pow_le_pow_right hb (Nat.le_succ k))
  unfold setDigit
  rw [Nat.mod_eq_of_lt hd, Nat.div_eq_of_lt h1, zero_mul, add_zero]

theorem getSeg_setSeg_self (gran d k v : Nat) :
    getSeg gran (setSeg gran d k v) k = v % 2 ^ gran :=
  getDigit_setDigit_self (pow_pos two_pos gran) d k v

theorem getSeg_setSeg_lt {j k : Nat} (gran : Nat) (hjk : j < k) (d v : Nat) :
    getSeg gran (setSeg gran d k v) j = getSeg gran d j :=
  getDigit_setDigit_lt (pow_pos two_pos gran) hjk d v

theorem getSeg_setSeg_gt {j k : Nat} (gran : Nat) (hkj : k < j) (d v : Nat) :
    getSeg gran (setSeg gran d k v) j = getSeg gran d j :=
  getDigit_setDigit_gt (pow_pos two_pos gran) hkj d v

/-! ## Bridge transaction trace lemmas -/

theorem bridgeRun_cycle_inv (chunks gran : Nat) (inp : Nat → BridgeInput)
    (hcyc : ∀ t, (inp t).cyc = true) (hstb : (inp 0).stb = true) :
    ∀ t, t ≤ chunks →
      (bridgeRun chunks gran inp t).cycle = t ∧
      (bridgeRun chunks gran inp t).ack = false := by
  intro t
  induction t with
  | zero => exact fun _ => ⟨rfl, rfl⟩
  | succ n ih =>
    intro h
    obtain ⟨hc, ha⟩ := ih (by omega)
    have hact : bridgeActive (bridgeRun chunks gran inp n) (inp n) = true := by
      unfold bridgeActive
      rw [hcyc n, hc]
      rcases Nat.eq_zero_or_pos n with h0 | h0
      · subst h0
        rw [hstb]
        simp
      · have hn : n ≠ 0 := by omega
        simp [hn]
    have hlt : n < chunks := by omega
    show (bridgeStep chunks gran (bridgeRun chunks gran inp n) (inp n)).cycle = n + 1 ∧
      (bridgeStep chunks gran (bridgeRun chunks gran inp n) (inp n)).ack = false
    unfold bridgeStep
    rw [hact, ha, hc]
    simp [hlt]

theorem bridgeStep_dat_r (chunks gran : Nat) (s : BridgeState) (j : BridgeInput)
    (hcyc : j.cyc = true) (h1 : 0 < s.cycle) (h2 : s.cycle ≤ chunks) :
    (bridgeStep chunks gran s j).dat_r = setSeg gran s.dat_r (s.cycle - 1) j.r_data := by
  have hact : bridgeActive s j = true := by
    unfold bridgeActive
    rw [hcyc]
    have hn : s.cycle ≠ 0 := by omega
    simp [hn]
  unfold bridgeStep
  rw [hact]
  rcases lt_or_eq_of_le h2 with hlt | heq
  · cases hs : s.ack <;> simp [hlt, h1]
  · have hnlt : ¬ s.cycle < chunks := by omega
    cases hs : s.ack <;> simp [hnlt, heq]

theorem bridgeRun_dat_r_slices (chunks gran : Nat) (inp : Nat → BridgeInput)
    (hcyc : ∀ t, (inp t).cyc = true) (hstb : (inp 0).stb = true) :
    ∀ t, t ≤ chunks → ∀ k, k < t →
      getSeg gran (bridgeRun chunks gran inp (t + 1)).dat_r k
        = (inp (k + 1)).r_data % 2 ^ gran := by
  intro t
  induction t with
  | zero => intro _ k hk; omega
  | succ n ih =>
    intro h k hk
    obtain ⟨hc, _⟩ := bridgeRun_cycle_inv chunks gran inp hcyc hstb (n + 1) h
    have hstep : (bridgeRun chunks gran inp (n + 1 + 1)).dat_r
        = setSeg gran (bridgeRun chunks gran inp (n + 1)).dat_r n (inp (n + 1)).r_data := by
      have := bridgeStep_dat_r chunks gran (bridgeRun chunks gran inp (n + 1)) (inp (n + 1))
        (hcyc (n + 1)) (by omega) (by omega)
      rw [hc] at this
      simpa using this
    rcases Nat.lt_succ_iff_lt_or_eq.mp hk with hlt | heq
    · rw [hstep, getSeg_setSeg_lt gran hlt]
      exact ih (by omega) k hlt
    · subst heq
      rw [hstep, getSeg_setSeg_self]

/-! ## Claim theorems for the bridge state machine -/

/-- C1: from idle, with `cyc` held asserted and `stb` asserted on the first
cycle, the wide-bus `ack` is low on every one of the first `chunks` states and
first asserts exactly `chunks + 1` clock cycles after `cyc & stb` is first
asserted; the statement quantifies over the whole input trace, so the count is
the same for every value of the `sel` chunk-select mask — unselected chunks
are not skipped. -/
theorem bridge_ack_pacing (chunks gran : Nat) (inp : Nat → BridgeInput)
    (hch : 1 ≤ chunks) (hcyc : ∀ t, (inp t).cyc = true)
    (hstb : (inp 0).stb = true) :
    (∀ t, t ≤ chunks → (bridgeRun chunks gran inp t).ack = false) ∧
    (bridgeRun chunks gran inp (chunks + 1)).ack = true := by
  refine ⟨fun t ht => (bridgeRun_cycle_inv chunks gran inp hcyc hstb t ht).2, ?_⟩
  obtain ⟨hc, ha⟩ := bridgeRun_cycle_inv chunks gran inp hcyc hstb chunks le_rfl
  have hact : bridgeActive (bridgeRun chunks gran inp chunks) (inp chunks) = true := by
    unfold bridgeActive
    rw [hcyc chunks, hc]
    have hn : chunks ≠ 0 := by omega
    simp [hn]
  show (bridgeStep chunks gran (bridgeRun chunks gran inp chunks) (inp chunks)).ack = true
  unfold bridgeStep
  rw [hact, ha]
  simp [hc]

theorem bridge_ack_pacing_w :
    (bridgeRun 2 8 (fun _ => ⟨true, true, false, 0, 0, fun _ => false, 0⟩) 3).ack
      = true :=
  (bridge_ack_pacing 2 8 _ (by decide) (fun _ => rfl) rfl).2

/-- C4: in every state in which the wide-bus `ack` output is asserted, the
next clock edge sets the internal `cycle` counter to 0 and deasserts `ack`,
whatever the inputs: `ack` is high for exactly one cycle and the bridge is
ready for a new transaction one cycle after `ack` is observed. -/
theorem bridge_idle_return (chunks gran : Nat) (s : BridgeState) (j : BridgeInput)
    (h : s.ack = true) :
    (bridgeStep chunks gran s j).cycle = 0 ∧
    (bridgeStep chunks gran s j).ack = false := by
  unfold bridgeStep
  rw [h]
  simp

theorem bridge_idle_return_w :
    (bridgeStep 2 8 ⟨2, true, 0⟩ ⟨true, true, false, 0, 0, fun _ => false, 0⟩).cycle = 0 ∧
    (bridgeStep 2 8 ⟨2, true, 0⟩ ⟨true, true, false, 0, 0, fun _ => false, 0⟩).ack = false :=
  bridge_idle_return 2 8 _ _ rfl

/-- C10: in every bridge state with a nonzero cycle counter, `ack` deasserted
and the wide-bus `cyc` input deasserted, a clock step leaves the whole
registered state — cycle counter, `ack` and the wide `dat_r` register —
unchanged: the in-flight transaction is suspended in place, not aborted. -/
theorem bridge_suspend (chunks gran : Nat) (s : BridgeState) (j : BridgeInput)
    (_h1 : s.cycle ≠ 0) (h2 : s.ack = false) (h3 : j.cyc = false) :
    bridgeStep chunks gran s j = s := by
  unfold bridgeStep bridgeActive
  rw [h2, h3]
  simp

theorem bridge_suspend_w :
    bridgeStep 2 8 ⟨1, false, 5⟩ ⟨false, false, false, 0, 0, fun _ => false, 0⟩
      = ⟨1, false, 5⟩ :=
  bridge_suspend 2 8 _ _ (by decide) rfl rfl

/-- C5: wide read reassembly.  Step-wise: whenever the bridge is active with
`0 < cycle < chunks`, the narrow bus `r_data` (returned for the previous
chunk, CSR reads being registered) is written into slice `cycle - 1` of the
wide `dat_r` register, and in the terminal dispatch branch (`cycle = chunks`)
it is written into the final slice `chunks - 1`.  End-to-end: running a
transaction from idle, at the `ack` state (time `chunks + 1`) slice `k` of
`dat_r` holds the narrow read data presented during cycle `k + 1` — the data
the CSR bus returned for chunk `k` — for every `k < chunks`. -/
theorem bridge_read_reassembly (chunks gran : Nat) (inp : Nat → BridgeInput)
    (hch : 1 ≤ chunks) (hcyc : ∀ t, (inp t).cyc = true)
    (hstb : (inp 0).stb = true) :
    (∀ (s : BridgeState) (j : BridgeInput), j.cyc = true →
        0 < s.cycle → s.cycle < chunks →
        (bridgeStep chunks gran s j).dat_r
          = setSeg gran s.dat_r (s.cycle - 1) j.r_data) ∧
    (∀ (s : BridgeState) (j : BridgeInput), j.cyc = true → s.cycle = chunks →
        (bridgeStep chunks gran s j).dat_r
          = setSeg gran s.dat_r (chunks - 1) j.r_data) ∧
    (∀ k, k < chunks →
        getSeg gran (bridgeRun chunks gran inp (chunks + 1)).dat_r k
          = (inp (k + 1)).r_data % 2 ^ gran) := by
  refine ⟨?_, ?_, ?_⟩
  · intro s j hj h1 h2
    exact bridgeStep_dat_r chunks gran s j hj h1 (le_of_lt h2)
  · intro s j hj heq
    have := bridgeStep_dat_r chunks gran s j hj (by omega) (by omega)
    rw [heq] at this
    exact this
  · exact fun k hk =>
      bridgeRun_dat_r_slices chunks gran inp hcyc hstb chunks le_rfl k hk

theorem bridge_read_reassembly_w :
    getSeg 8 (bridgeRun 2 8 (fun t => ⟨true, true, false, 0, 0, fun _ => true, t + 10⟩) 3).dat_r 0
      = 11 % 2 ^ 8 :=
  (bridge_read_reassembly 2 8 _ (by decide) (fun _ => rfl) rfl).2.2 0 (by decide)

/-- C6: narrow address formation.  The combinational CSR address is
`Cat(cycle[:k], wb_bus.adr)` with `k = log2_int(chunks)`; during the chunk
dispatch (`cycle < chunks = 2 ^ k`) its low `k` bits recover the cycle
counter — the chunk index — and the bits above them recover the wide bus
address, for every state and every wide address. -/
theorem bridge_csr_addr_formation (k : Nat) (s : BridgeState) (j : BridgeInput)
    (h : s.cycle < 2 ^ k) :
    csr_addr k s j % 2 ^ k = s.cycle ∧ csr_addr k s j / 2 ^ k = j.adr := by
  have hk : 0 < 2 ^ k := pow_pos two_pos k
  unfold csr_addr
  constructor
  · rw [Nat.add_mul_mod_self_left, Nat.mod_mod_of_dvd _ dvd_rfl,
        Nat.mod_eq_of_lt h]
  · rw [Nat.mod_eq_of_lt h, Nat.add_mul_div_left _ _ hk,
        Nat.div_eq_of_lt h, zero_add]

theorem bridge_csr_addr_formation_w :
    csr_addr 2 ⟨3, false, 0⟩ ⟨true, true, false, 7, 0, fun _ => false, 0⟩ % 2 ^ 2 = 3 ∧
    csr_addr 2 ⟨3, false, 0⟩ ⟨true, true, false, 7, 0, fun _ => false, 0⟩ / 2 ^ 2 = 7 :=
  bridge_csr_addr_formation 2 _ _ (by decide)

/-! ## Construction-time validation lemmas -/

theorem log2_int_pow (m : Nat) : log2_int (2 ^ m) = some m := by
  have hne : 2 ^ m ≠ 0 := (pow_pos two_pos m).ne'
  unfold log2_int
  rw [if_neg hne]
  cases hf : (List.range (2 ^ m + 1)).find? (fun r => 2 ^ r == 2 ^ m) with
  | none =>
    exfalso
    have hmem : m ∈ List.range (2 ^ m + 1) :=
      List.mem_range.mpr (by have := Nat.lt_two_pow m; omega)
    have := List.find?_eq_none.mp hf m hmem
    simp at this
  | some r =>
    have hp : 2 ^ r = 2 ^ m := by simpa using List.find?_some hf
    rw [Nat.pow_right_injective le_rfl hp]

theorem log2_int_eq_some {n r : Nat} (h : log2_int n = some r) :
    (n = 0 ∧ r = 0) ∨ n = 2 ^ r := by
  unfold log2_int at h
  by_cases h0 : n = 0
  · rw [if_pos h0] at h
    exact Or.inl ⟨h0, (Option.some_inj.mp h).symm⟩
  · rw [if_neg h0] at h
    have h2 : 2 ^ r = n := by simpa using List.find?_some h
    exact Or.inr h2.symm

theorem isPow2_iff {n : Nat} : isPow2 n = true ↔ ∃ m, n = 2 ^ m := by
  unfold isPow2
  rw [List.any_eq_true]
  constructor
  · rintro ⟨r, _, hp⟩
    have h2 : 2 ^ r = n := by simpa using hp
    exact ⟨r, h2.symm⟩
  · rintro ⟨m, rfl⟩
    refine ⟨m, List.mem_range.mpr (by have := Nat.lt_two_pow m; omega), by simp⟩

theorem mem_csr_widths_pow2 {n : Nat}
    (h : n = 8 ∨ n = 16 ∨ n = 32 ∨ n = 64) : ∃ c, n = 2 ^ c := by
  rcases h with rfl | rfl | rfl | rfl
  exacts [⟨3, rfl⟩, ⟨4, rfl⟩, ⟨5, rfl⟩, ⟨6, rfl⟩]

/-- C7: for every successfully constructed bridge, the wide (Wishbone) bus
address width equals `max(0, csr_addr_width - log2(chunks))` with
`chunks = wide data width / narrow data width` (the comparison is stated over
the integers, matching the Python `max(0, ...)`), and its granularity equals
the narrow CSR data width. -/
theorem bridge_addr_width_granularity (caw cdw : Nat) (odw : Option Nat)
    (cfg : BridgeConfig) (h : bridgeInit caw cdw odw = some cfg) :
    (cfg.wb_addr_width : Int)
      = max 0 ((caw : Int) - (Nat.log2 (cfg.wb_data_width / cdw) : Int)) ∧
    cfg.wb_granularity = cdw := by
  unfold bridgeInit at h
  by_cases hmem : cdw = 8 ∨ cdw = 16 ∨ cdw = 32 ∨ cdw = 64
  · rw [if_pos hmem] at h
    cases hl : log2_int (odw.getD cdw / cdw) with
    | none => rw [hl, Option.none_bind] at h; cases h
    | some r =>
      rw [hl, Option.some_bind] at h
      by_cases hok : wishboneInterfaceOk (odw.getD cdw) cdw = true
      · rw [if_pos hok] at h
        have hcfg : cfg = { wb_addr_width := max 0 (caw - r)
                            wb_data_width := odw.getD cdw
                            wb_granularity := cdw } := (Option.some_inj.mp h).symm
        subst hcfg
        refine ⟨?_, rfl⟩
        have hlog : Nat.log2 (odw.getD cdw / cdw) = r := by
          rcases log2_int_eq_some hl with ⟨h0, rfl⟩ | hpow
          · rw [h0, Nat.log2_eq_log_two, Nat.log_zero_right]
          · rw [hpow, Nat.log2_eq_log_two, Nat.log_pow (by norm_num)]
        show ((max 0 (caw - r) : Nat) : Int) = _
        rw [hlog]
        omega
      · rw [if_neg hok] at h
        cases h
  · rw [if_neg hmem] at h
    cases h

theorem bridge_addr_width_granularity_w :
    (((BridgeConfig.mk 8 32 8).wb_addr_width : Nat) : Int)
      = max 0 ((10 : Int) - (Nat.log2 ((BridgeConfig.mk 8 32 8).wb_data_width / 8) : Int)) ∧
    (BridgeConfig.mk 8 32 8).wb_granularity = 8 :=
  bridge_addr_width_granularity 10 8 (some 32) (BridgeConfig.mk 8 32 8) (by decide)

/-- C9: the bridge constructor fails (returning no configuration) exactly
when the CSR data width is outside {8, 16, 32, 64} or the wide data width is
not a power-of-two integer multiple of the narrow width; otherwise
construction succeeds.  Omitting `data_width` behaves exactly as passing the
CSR bus data width. -/
theorem bridge_construct_iff (caw cdw : Nat) (odw : Option Nat) :
    ((bridgeInit caw cdw odw).isSome = true ↔
      ((cdw = 8 ∨ cdw = 16 ∨ cdw = 32 ∨ cdw = 64) ∧
        ∃ m, odw.getD cdw = 2 ^ m * cdw)) ∧
    bridgeInit caw cdw none = bridgeInit caw cdw (some cdw) := by
  refine ⟨?_, rfl⟩
  unfold bridgeInit
  by_cases hmem : cdw = 8 ∨ cdw = 16 ∨ cdw = 32 ∨ cdw = 64
  · rw [if_pos hmem]
    obtain ⟨c, hc⟩ := mem_csr_widths_pow2 hmem
    have hcpos : 0 < cdw := by rcases hmem with rfl | rfl | rfl | rfl <;> norm_num
    cases hl : log2_int (odw.getD cdw / cdw) with
    | none =>
      rw [Option.none_bind]
      simp only [Option.isSome_none, Bool.false_eq_true, false_iff]
      rintro ⟨-, m, hm⟩
      have hdiv : odw.getD cdw / cdw = 2 ^ m := by
        rw [hm, Nat.mul_div_cancel _ hcpos]
      rw [hdiv, log2_int_pow] at hl
      cases hl
    | some r =>
      rw [Option.some_bind]
      by_cases hok : wishboneInterfaceOk (odw.getD cdw) cdw = true
      · rw [if_pos hok]
        simp only [Option.isSome_some, true_iff]
        refine ⟨hmem, ?_⟩
        unfold wishboneInterfaceOk at hok
        rw [Bool.and_eq_true, decide_eq_true_eq] at hok
        obtain ⟨s, hs⟩ := isPow2_iff.mp hok.1
        have hcs : c ≤ s := by
          have : (2 : Nat) ^ c ≤ 2 ^ s := by rw [← hc, ← hs]; exact hok.2
          exact (Nat.pow_le_pow_iff_right (by norm_num)).mp this
        refine ⟨s - c, ?_⟩
        rw [hs, hc, ← pow_add]
        congr 1
        omega
      · rw [if_neg hok]
        simp only [Option.isSome_none, Bool.false_eq_true, false_iff]
        rintro ⟨-, m, hm⟩
        apply hok
        unfold wishboneInterfaceOk
        rw [Bool.and_eq_true, decide_eq_true_eq]
        constructor
        · exact isPow2_iff.mpr ⟨m + c, by rw [hm, hc, pow_add]⟩
        · rw [hm]
          exact Nat.le_mul_of_pos_left cdw (pow_pos two_pos m)
  · rw [if_neg hmem]
    simp [hmem]

/-- C2: the claim says the bridge drives the wide bus `stall` output as the
negation of `ack` whenever the bus exposes one.  The code cannot: line 89
reads `wb_bus.stall.eq(~ack)`, and the bare name `ack` is bound neither in
the local scope of `elaborate` nor at module level in `wishbone.py` (nor by
the nmigen star import or Python builtins), so whenever
`hasattr(wb_bus, "stall")` holds, elaboration raises `NameError` instead of
driving `stall` — the source slipped `wb_bus.` off the intended
`~wb_bus.ack`. -/
theorem stall_rhs_ack_unbound :
    stallAssignLocals.contains PyName.pyAck = false ∧
    wishbonePyModuleNames.contains PyName.pyAck = false := by
  decide

/-! ## Claim theorems for the multiplexer write path -/

theorem elemWrRun_acc (cw els : Nat) (d : Nat → Nat) :
    ∀ t, t ≤ els →
      (elemWrRun cw els d t).w_acc
          = ∑ i ∈ Finset.range t, d i % 2 ^ cw * (2 ^ cw) ^ i ∧
      (elemWrRun cw els d t).w_acc < (2 ^ cw) ^ t := by
  intro t
  induction t with
  | zero => exact fun _ => ⟨by simp [elemWrRun], by simp [elemWrRun]⟩
  | succ t ih =>
    intro h
    obtain ⟨hs, hb⟩ := ih (by omega)
    have hlt : t < els := by omega
    have hin : ascWrites els d t = some (t, d t) := by simp [ascWrites, hlt]
    have hstep : (elemWrRun cw els d (t + 1)).w_acc
        = setSeg cw (elemWrRun cw els d t).w_acc t (d t) := by
      show (elemWrStep cw els (elemWrRun cw els d t) (ascWrites els d t)).w_acc = _
      rw [hin]
      rfl
    have hbpos : 0 < (2 : Nat) ^ cw := pow_pos (by norm_num) cw
    have hset : setSeg cw (elemWrRun cw els d t).w_acc t (d t)
        = (elemWrRun cw els d t).w_acc + d t % 2 ^ cw * (2 ^ cw) ^ t :=
      setDigit_of_lt hbpos hb (d t)
    constructor
    · rw [hstep, hset, hs, Finset.sum_range_succ]
    · rw [hstep, hset]
      have hdig : d t % 2 ^ cw * (2 ^ cw) ^ t ≤ (2 ^ cw - 1) * (2 ^ cw) ^ t :=
        Nat.mul_le_mul_right _
          (by have := Nat.mod_lt (d t) hbpos; omega)
      have hsum : (2 ^ cw) ^ t + (2 ^ cw - 1) * (2 ^ cw) ^ t = (2 ^ cw) ^ (t + 1) := by
        have h1 : (2 ^ cw) ^ t + (2 ^ cw - 1) * (2 ^ cw) ^ t
            = (1 + (2 ^ cw - 1)) * (2 ^ cw) ^ t := by ring
        rw [h1, show 1 + (2 ^ cw - 1) = 2 ^ cw from by omega, pow_succ]
        ring
      omega

theorem elemWrRun_stb (cw els : Nat) (d : Nat → Nat) (hels : 1 ≤ els) :
    ∀ t, ((elemWrRun cw els d t).w_stb = true ↔ t = els) := by
  intro t
  cases t with
  | zero =>
    show (false = true) ↔ 0 = els
    simp
    omega
  | succ t =>
    show (elemWrStep cw els (elemWrRun cw els d t) (ascWrites els d t)).w_stb = true
        ↔ t + 1 = els
    by_cases ht : t < els
    · rw [show ascWrites els d t = some (t, d t) from by simp [ascWrites, ht]]
      show decide (t = els - 1) = true ↔ t + 1 = els
      simp
      omega
    · rw [show ascWrites els d t = none from by simp [ascWrites, ht]]
      show (false = true) ↔ t + 1 = els
      simp
      omega

/-- C3: multi-chunk write atomicity.  For an element occupying `els ≥ 1`
chunks of `cw` bits, written chunk-by-chunk in ascending order with data
`d 0, ..., d (els - 1)`: the element's `w_stb` is asserted at time `t` if
and only if `t = els` — exactly one pulse, one cycle after the last chunk
(index `els - 1`) is written, low on every intermediate cycle — and at that
pulse the accumulator driving the element's `w_data` holds the fully
assembled value of all chunks, chunk `i` at bit offset `cw * i`. -/
theorem mux_write_atomicity (cw els : Nat) (d : Nat → Nat) (hels : 1 ≤ els) :
    (∀ t, ((elemWrRun cw els d t).w_stb = true ↔ t = els)) ∧
    (elemWrRun cw els d els).w_acc
        = ∑ i ∈ Finset.range els, d i % 2 ^ cw * 2 ^ (cw * i) := by
  refine ⟨elemWrRun_stb cw els d hels, ?_⟩
  rw [(elemWrRun_acc cw els d els le_rfl).1]
  exact Finset.sum_congr rfl fun i _ => by rw [pow_mul]

theorem mux_write_atomicity_w :
    ((elemWrRun 8 2 (fun t => if t = 0 then 85 else 170) 2).w_stb = true ↔ 2 = 2) ∧
    (elemWrRun 8 2 (fun t => if t = 0 then 85 else 170) 2).w_acc = 43605 :=
  ⟨(mux_write_atomicity 8 2 (fun t => if t = 0 then 85 else 170) (by decide)).1 2,
   ((mux_write_atomicity 8 2 (fun t => if t = 0 then 85 else 170) (by decide)).2).trans
     (by decide)⟩

/-! ## Claim theorems for the multiplexer address map -/

theorem alignUp_zero (x : Nat) : alignUp x 0 = x := by
  simp [alignUp]

theorem muxAddAll_count (dw : Nat) (ws : List Nat) :
    ∀ (c k : Nat), k < ws.length →
      ((muxAddAll dw 0 c ws).getD k (0, 0)).2 = rawChunks dw (ws.getD k 0) := by
  induction ws with
  | nil => intro c k hk; simp at hk
  | cons w ws ih =>
    intro c k hk
    cases k with
    | zero => simp [muxAddAll, muxAdd, alignUp_zero]
    | succ k =>
      have hk2 : k < ws.length := by simpa using hk
      simp only [muxAddAll, List.getD_cons_succ]
      exact ih _ k hk2

theorem muxAddAll_base (dw : Nat) (ws : List Nat) :
    ∀ (c k : Nat), k < ws.length →
      ((muxAddAll dw 0 c ws).getD k (0, 0)).1
        = c + ∑ j ∈ Finset.range k, ((muxAddAll dw 0 c ws).getD j (0, 0)).2 := by
  induction ws with
  | nil => intro c k hk; simp at hk
  | cons w ws ih =>
    intro c k hk
    cases k with
    | zero => simp [muxAddAll, muxAdd, alignUp_zero]
    | succ k =>
      have hk2 : k < ws.length := by simpa using hk
      have htail := ih (alignUp c 0 + alignUp (rawChunks dw w) 0) k hk2
      simp only [muxAddAll, muxAdd, List.getD_cons_succ]
      rw [htail, Finset.sum_range_succ']
      simp only [List.getD_cons_succ, List.getD_cons_zero, alignUp_zero]
      ring

/-- C8: address-map packing.  For every sequence of `add()` calls with
alignment 0 starting from cursor 0, the `k`-th added element's `base_offset`
equals the sum of the `chunk_count` values of all previously added elements,
and each returned `chunk_count` equals `ceil(width / data_width)` with a
minimum of one chunk even for a width-0 element. -/
theorem mux_address_packing (dw : Nat) (_hdw : 0 < dw) (ws : List Nat) (k : Nat)
    (hk : k < ws.length) :
    ((muxAddAll dw 0 0 ws).getD k (0, 0)).1
        = ∑ j ∈ Finset.range k, ((muxAddAll dw 0 0 ws).getD j (0, 0)).2 ∧
    ((muxAddAll dw 0 0 ws).getD k (0, 0)).2 = max 1 ((ws.getD k 0 + dw - 1) / dw) := by
  constructor
  · have := muxAddAll_base dw ws 0 k hk
    omega
  · exact muxAddAll_count dw ws 0 k hk

theorem mux_address_packing_w :
    ((muxAddAll 8 0 0 [16, 8]).getD 1 (0, 0)).1
        = ∑ j ∈ Finset.range 1, ((muxAddAll 8 0 0 [16, 8]).getD j (0, 0)).2 ∧
    ((muxAddAll 8 0 0 [16, 8]).getD 1 (0, 0)).2 = max 1 (([16, 8].getD 1 0 + 8 - 1) / 8) :=
  mux_address_packing 8 (by decide) [16, 8] 1 (by decide)

end NmigenSoc
